import Mathlib

/-!
Verification of the ICF center-finding core.

Shallow embedding of the center-finding pipeline of the `icf` repository:
the initial center-of-mass estimator, the mirror-symmetric mask builder,
the wedge asymmetry metric reduction, the skip logic of the refiner, and
the sampling, validation and aggregation of the chunked frame scheduler.

Machine floats that can carry the not-a-number sentinel are modelled as
`Option ℚ` (with `none` for the sentinel); finite float values are
modelled as exact rationals.  `np.round` rounds halves to even, which the
model reproduces exactly.
-/

namespace ICF

/-! ## Symmetric mask builder (`build_symmetric_mask_fast`) -/

/-- Rounding to the nearest integer, halves to even: the semantics of
`np.round` used when computing mirror pixel coordinates. -/
def roundHalfEven (q : ℚ) : ℤ :=
  if q - ⌊q⌋ < 1/2 then ⌊q⌋
  else if 1/2 < q - ⌊q⌋ then ⌊q⌋ + 1
  else if ⌊q⌋ % 2 = 0 then ⌊q⌋ else ⌊q⌋ + 1

/-- Mirror of the integer coordinate `x` about the real coordinate `c`,
rounded to the nearest pixel: `round(2*c - x)`. -/
def mirror1D (c : ℚ) (x : ℤ) : ℤ :=
  roundHalfEven (2 * c - x)

/-- Flattened mirror index of pixel `i` (row-major in a `rows × cols`
image) about the center `(cy, cx)`: `none` when the rounded mirror falls
out of bounds, as in the `mirror_index = -1` convention of the source. -/
def mirrorIdxFlat (rows cols : ℕ) (cy cx : ℚ) (i : ℕ) : Option ℕ :=
  if 0 ≤ mirror1D cx ((i % cols : ℕ) : ℤ) ∧ mirror1D cx ((i % cols : ℕ) : ℤ) < (cols : ℤ) ∧
     0 ≤ mirror1D cy ((i / cols : ℕ) : ℤ) ∧ mirror1D cy ((i / cols : ℕ) : ℤ) < (rows : ℤ) then
    some (mirror1D cy ((i / cols : ℕ) : ℤ) * cols + mirror1D cx ((i % cols : ℕ) : ℤ)).toNat
  else
    none

/-- One iteration of the pair-marking loop of `build_symmetric_mask_fast`:
with `j` the mirror index of `i`, a pair `i < j` is jointly accepted when
both are globally valid, a self-mirrored pixel is accepted when valid,
and `j < i` (already handled) or an out-of-bounds mirror changes nothing. -/
def symStep (valid : ℕ → Bool) (mirror : ℕ → Option ℕ) (sym : ℕ → Bool) (i : ℕ) :
    ℕ → Bool :=
  match mirror i with
  | none => sym
  | some j =>
    if i < j then
      if valid i && valid j then
        fun p => sym p || decide (p = i) || decide (p = j)
      else sym
    else if j = i then
      if valid i then fun p => sym p || decide (p = i) else sym
    else sym

/-- `build_symmetric_mask_fast`: the single pass over all flattened pixel
indices that marks mirror pairs, starting from the all-`False` mask. -/
def buildSymmetricMaskFast (rows cols : ℕ) (valid : ℕ → Bool) (cy cx : ℚ) :
    ℕ → Bool :=
  (List.range (rows * cols)).foldl
    (symStep valid (mirrorIdxFlat rows cols cy cx)) (fun _ => false)

end ICF

namespace ICF

/-! Facts about half-to-even rounding and the mirror map. -/

theorem roundHalfEven_int (n : ℤ) : roundHalfEven (n : ℚ) = n := by
  simp [roundHalfEven]

theorem roundHalfEven_eq_of_abs_lt {q : ℚ} {n : ℤ} (h : |q - n| < 1/2) :
    roundHalfEven q = n := by
  rw [abs_lt] at h
  obtain ⟨h1, h2⟩ := h
  rcases le_or_lt (n : ℚ) q with hge | hlt
  · have hfl : ⌊q⌋ = n := by
      apply Int.floor_eq_iff.mpr
      constructor
      · exact hge
      · have : q < n + 1/2 := by linarith
        linarith
    have hlt2 : q - (⌊q⌋ : ℚ) < 1/2 := by rw [hfl]; linarith
    unfold roundHalfEven
    rw [if_pos hlt2, hfl]
  · have hfl : ⌊q⌋ = n - 1 := by
      apply Int.floor_eq_iff.mpr
      push_cast
      constructor
      · linarith
      · linarith
    have hc : (⌊q⌋ : ℚ) = (n : ℚ) - 1 := by rw [hfl]; push_cast; ring
    have hr1 : ¬ (q - (⌊q⌋ : ℚ) < 1/2) := by rw [hc]; intro hcon; linarith
    have hr2 : 1/2 < q - (⌊q⌋ : ℚ) := by rw [hc]; linarith
    unfold roundHalfEven
    rw [if_neg hr1, if_pos hr2, hfl]
    ring

theorem abs_sub_roundHalfEven_lt {q : ℚ} (h : Int.fract q ≠ 1/2) :
    |q - roundHalfEven q| < 1/2 := by
  have hfr : Int.fract q = q - ⌊q⌋ := Int.self_sub_floor q ▸ rfl
  have h0 : (0 : ℚ) ≤ q - ⌊q⌋ := by
    have := Int.fract_nonneg q
    rwa [hfr] at this
  have h1 : q - ⌊q⌋ < 1 := by
    have := Int.fract_lt_one q
    rwa [hfr] at this
  have hne : q - ⌊q⌋ ≠ 1/2 := by rwa [hfr] at h
  unfold roundHalfEven
  rcases lt_trichotomy (q - (⌊q⌋ : ℚ)) (1/2) with hlt | heq | hgt
  · rw [if_pos hlt, abs_lt]
    constructor <;> linarith
  · exact absurd heq hne
  · have hnlt : ¬ (q - (⌊q⌋ : ℚ) < 1/2) := by linarith
    rw [if_neg hnlt, if_pos hgt, abs_lt]
    push_cast
    constructor <;> linarith

theorem fract_mirror_arg (c : ℚ) (x : ℤ) :
    Int.fract (2 * c - x) = Int.fract (2 * c) := by
  rw [sub_eq_add_neg]
  have : ((-x : ℤ) : ℚ) = -(x : ℚ) := by push_cast; ring
  rw [← this, Int.fract_add_int]

/-- When `2*c` is not a half-odd-integer, rounding never ties, and the
1-D mirror map is an involution. -/
theorem mirror1D_involutive {c : ℚ} (h : Int.fract (2 * c) ≠ 1/2)
    {x m : ℤ} (hm : mirror1D c x = m) : mirror1D c m = x := by
  have hfr : Int.fract (2 * c - x) ≠ 1/2 := by
    rw [fract_mirror_arg]; exact h
  have habs : |2 * c - x - m| < 1/2 := by
    have := abs_sub_roundHalfEven_lt hfr
    rwa [show roundHalfEven (2 * c - x) = m from hm] at this
  apply roundHalfEven_eq_of_abs_lt
  have : 2 * c - m - x = 2 * c - x - m := by ring
  rw [this]
  exact habs

/-- `mirrorIdxFlat` returns `some j` exactly when the rounded mirror row
and column are in bounds and `j` is their flattened index. -/
theorem mirrorIdxFlat_eq_some {rows cols : ℕ} {cy cx : ℚ} {i j : ℕ} :
    mirrorIdxFlat rows cols cy cx i = some j ↔
      0 ≤ mirror1D cx ((i % cols : ℕ) : ℤ) ∧ mirror1D cx ((i % cols : ℕ) : ℤ) < (cols : ℤ) ∧
      0 ≤ mirror1D cy ((i / cols : ℕ) : ℤ) ∧ mirror1D cy ((i / cols : ℕ) : ℤ) < (rows : ℤ) ∧
      (j : ℤ) = mirror1D cy ((i / cols : ℕ) : ℤ) * cols + mirror1D cx ((i % cols : ℕ) : ℤ) := by
  unfold mirrorIdxFlat
  split
  case isTrue hc =>
    obtain ⟨h1, h2, h3, h4⟩ := hc
    simp only [Option.some.injEq]
    constructor
    · intro hj
      refine ⟨h1, h2, h3, h4, ?_⟩
      rw [← hj, Int.toNat_of_nonneg]
      exact add_nonneg (mul_nonneg h3 (Int.natCast_nonneg cols)) h1
    · rintro ⟨_, _, _, _, hj⟩
      omega
  case isFalse hc =>
    constructor
    · intro h; exact absurd h (by simp)
    · rintro ⟨h1, h2, h3, h4, _⟩
      exact absurd ⟨h1, h2, h3, h4⟩ hc

/-- When neither doubled center coordinate is a half-odd-integer, the
flattened mirror map is an involution on in-range pixel indices. -/
theorem mirrorIdxFlat_involutive {rows cols : ℕ} {cy cx : ℚ}
    (hy : Int.fract (2 * cy) ≠ 1/2) (hx : Int.fract (2 * cx) ≠ 1/2)
    {i j : ℕ} (hi : i < rows * cols)
    (hij : mirrorIdxFlat rows cols cy cx i = some j) :
    mirrorIdxFlat rows cols cy cx j = some i := by
  rw [mirrorIdxFlat_eq_some] at hij
  obtain ⟨hmx0, hmxc, hmy0, hmyr, hj⟩ := hij
  set x : ℕ := i % cols with hxdef
  set y : ℕ := i / cols with hydef
  set mx := mirror1D cx (x : ℤ) with hmxdef
  set my := mirror1D cy (y : ℤ) with hmydef
  have hcols : 0 < cols := by omega
  have hrows : 0 < rows := by omega
  have hjnat : j = my.toNat * cols + mx.toNat := by
    have h2 : my = (my.toNat : ℤ) := (Int.toNat_of_nonneg hmy0).symm
    have h3 : mx = (mx.toNat : ℤ) := (Int.toNat_of_nonneg hmx0).symm
    rw [h2, h3] at hj
    exact_mod_cast hj
  have hmxlt : mx.toNat < cols := by omega
  have hjdiv : j / cols = my.toNat := by
    rw [hjnat, Nat.mul_comm, Nat.mul_add_div hcols, Nat.div_eq_of_lt hmxlt]
    omega
  have hjmod : j % cols = mx.toNat := by
    rw [hjnat, Nat.mul_comm my.toNat cols, Nat.mul_add_mod, Nat.mod_eq_of_lt hmxlt]
  have hgx : mirror1D cx ((j % cols : ℕ) : ℤ) = (x : ℤ) := by
    rw [hjmod, Int.toNat_of_nonneg hmx0]
    exact mirror1D_involutive hx hmxdef.symm
  have hgy : mirror1D cy ((j / cols : ℕ) : ℤ) = (y : ℤ) := by
    rw [hjdiv, Int.toNat_of_nonneg hmy0]
    exact mirror1D_involutive hy hmydef.symm
  rw [mirrorIdxFlat_eq_some, hgx, hgy]
  have hxlt : x < cols := Nat.mod_lt i hcols
  have hylt : y < rows := (Nat.div_lt_iff_lt_mul hcols).mpr (by rw [Nat.mul_comm] at hi ⊢; exact hi)
  refine ⟨by positivity, by exact_mod_cast hxlt, by positivity, by exact_mod_cast hylt, ?_⟩
  have h5 : y * cols + x = i := by
    rw [Nat.mul_comm]
    exact Nat.div_add_mod i cols
  rw [← h5]
  push_cast
  ring

/-- Closure of a mask under the mirror map: every set pixel whose mirror
index is defined and distinct from it has its mirror set as well. -/
def symClosed (mirror : ℕ → Option ℕ) (sym : ℕ → Bool) : Prop :=
  ∀ p q, sym p = true → mirror p = some q → q ≠ p → sym q = true

theorem symStep_none (valid : ℕ → Bool) (mirror : ℕ → Option ℕ)
    (sym : ℕ → Bool) (i : ℕ) (h : mirror i = none) :
    symStep valid mirror sym i = sym := by
  unfold symStep
  rw [h]

theorem symStep_some (valid : ℕ → Bool) (mirror : ℕ → Option ℕ)
    (sym : ℕ → Bool) (i j : ℕ) (h : mirror i = some j) :
    symStep valid mirror sym i =
      if i < j then
        if valid i && valid j then
          fun p => sym p || decide (p = i) || decide (p = j)
        else sym
      else if j = i then
        if valid i then fun p => sym p || decide (p = i) else sym
      else sym := by
  unfold symStep
  rw [h]

theorem symStep_symClosed (valid : ℕ → Bool) (mirror : ℕ → Option ℕ) {i : ℕ}
    (hinvol : ∀ j, mirror i = some j → mirror j = some i)
    {sym : ℕ → Bool} (h : symClosed mirror sym) :
    symClosed mirror (symStep valid mirror sym i) := by
  intro p q hp hpq hqp
  rcases Option.eq_none_or_eq_some (mirror i) with hmi | ⟨j, hmi⟩
  · rw [symStep_none valid mirror sym i hmi] at hp ⊢
    exact h p q hp hpq hqp
  · rw [symStep_some valid mirror sym i j hmi] at hp ⊢
    split_ifs at hp ⊢ with h1 h2 h3 h4
    · -- paired case: i < j, both valid
      simp only [Bool.or_eq_true, decide_eq_true_eq] at hp ⊢
      rcases hp with (hsym | hpi) | hpj
      · exact Or.inl (Or.inl (h p q hsym hpq hqp))
      · subst hpi
        rw [hmi] at hpq
        exact Or.inr (by injection hpq with hqj; exact hqj.symm ▸ rfl)
      · subst hpj
        rw [hinvol p hmi] at hpq
        injection hpq with hqi
        exact Or.inl (Or.inr hqi.symm)
    · exact h p q hp hpq hqp
    · -- self-mirror case: j = i, valid
      simp only [Bool.or_eq_true, decide_eq_true_eq] at hp ⊢
      rcases hp with hsym | hpi
      · exact Or.inl (h p q hsym hpq hqp)
      · subst hpi
        rw [hmi] at hpq
        injection hpq with hqj
        exact absurd (hqj.symm.trans h3) hqp
    · exact h p q hp hpq hqp
    · exact h p q hp hpq hqp

theorem foldl_symStep_symClosed (valid : ℕ → Bool) (mirror : ℕ → Option ℕ) :
    ∀ (l : List ℕ) (sym : ℕ → Bool),
      (∀ i ∈ l, ∀ j, mirror i = some j → mirror j = some i) →
      symClosed mirror sym →
      symClosed mirror (l.foldl (symStep valid mirror) sym) := by
  intro l
  induction l with
  | nil => intro sym _ h; exact h
  | cons a t ih =>
    intro sym hl h
    exact ih _ (fun i hi => hl i (List.mem_cons_of_mem _ hi))
      (symStep_symClosed valid mirror (hl a (List.mem_cons_self _ _)) h)

/-- **C1** (amended): for every global validity mask and every candidate
center whose doubled coordinates are not half-odd-integers (so the
half-to-even rounding of mirror coordinates never ties and the mirror map
is an involution), the mask produced by `build_symmetric_mask_fast` is
closed under mirroring: if pixel `p` is set and its rounded mirror `q` is
in-bounds with `q ≠ p`, then `q` is also set. -/
theorem build_symmetric_mask_fast_closed (rows cols : ℕ) (valid : ℕ → Bool)
    (cy cx : ℚ) (hy : Int.fract (2 * cy) ≠ 1/2) (hx : Int.fract (2 * cx) ≠ 1/2)
    (p q : ℕ) (hp : buildSymmetricMaskFast rows cols valid cy cx p = true)
    (hq : mirrorIdxFlat rows cols cy cx p = some q) (hne : q ≠ p) :
    buildSymmetricMaskFast rows cols valid cy cx q = true := by
  refine foldl_symStep_symClosed valid (mirrorIdxFlat rows cols cy cx)
    (List.range (rows * cols)) (fun _ => false) ?_ ?_ p q hp hq hne
  · intro i hi j hj
    exact mirrorIdxFlat_involutive hy hx (List.mem_range.mp hi) hj
  · intro a b hab
    exact absurd hab (by simp)

/-- **C1** (counterexample to the claim as stated): on a `1 × 3` image with
center `cx = 5/4`, the half-to-even tie-breaking of `np.round` makes the
mirror map non-involutive (pixels 1 and 2 both mirror into the cell of
pixel 0, while the mirror of pixel 2 maps back to 2, not 1): with global
mask `[F, T, T]` the
produced mask sets pixel 2 while its in-bounds mirror, pixel 0 ≠ 2, stays
unset. -/
theorem build_symmetric_mask_fast_not_closed :
    buildSymmetricMaskFast 1 3 (fun i => i != 0) 0 (5/4) 2 = true ∧
    mirrorIdxFlat 1 3 0 (5/4) 2 = some 0 ∧ (0 : ℕ) ≠ 2 ∧
    buildSymmetricMaskFast 1 3 (fun i => i != 0) 0 (5/4) 0 = false := by
  refine ⟨?_, ?_, by decide, ?_⟩
  · with_unfolding_all decide
  · with_unfolding_all decide
  · with_unfolding_all decide

/-- Witness for the amended C1 theorem at a concrete input: a `1 × 3`
image, all-valid mask, center `(cy, cx) = (0, 1)`; pixel 0 is set and its
mirror pixel 2 is forced to be set. -/
theorem build_symmetric_mask_fast_closed_witness :
    buildSymmetricMaskFast 1 3 (fun _ => true) 0 1 2 = true :=
  build_symmetric_mask_fast_closed 1 3 (fun _ => true) 0 1
    (by with_unfolding_all decide) (by with_unfolding_all decide) 0 2
    (by with_unfolding_all decide) (by with_unfolding_all decide)
    (by decide)

/-! ## Initial estimator (`center_of_mass_initial_guess`) -/

/-- The pixels selected by the validity mask in a `rows × cols` frame. -/
def validPixels (rows cols : ℕ) (mask : ℕ → ℕ → Bool) : Finset (ℕ × ℕ) :=
  (Finset.range rows ×ˢ Finset.range cols).filter (fun p => mask p.1 p.2)

/-- Total intensity over the valid pixels (`np.sum(valid_intensity)`). -/
def totalIntensity (rows cols : ℕ) (image : ℕ → ℕ → ℚ) (mask : ℕ → ℕ → Bool) : ℚ :=
  ∑ p ∈ validPixels rows cols mask, image p.1 p.2

/-- `center_of_mass_initial_guess`: the intensity-weighted centroid
`(cx, cy)` of the valid pixels, with the geometric center
`(cols/2, rows/2)` as the zero-total fallback. -/
def center_of_mass_initial_guess (rows cols : ℕ) (image : ℕ → ℕ → ℚ)
    (mask : ℕ → ℕ → Bool) : ℚ × ℚ :=
  if totalIntensity rows cols image mask = 0 then
    ((cols : ℚ) / 2, (rows : ℚ) / 2)
  else
    ((∑ p ∈ validPixels rows cols mask, (p.2 : ℚ) * image p.1 p.2) /
       totalIntensity rows cols image mask,
     (∑ p ∈ validPixels rows cols mask, (p.1 : ℚ) * image p.1 p.2) /
       totalIntensity rows cols image mask)

theorem mem_validPixels {rows cols : ℕ} {mask : ℕ → ℕ → Bool} {p : ℕ × ℕ} :
    p ∈ validPixels rows cols mask ↔
      p.1 < rows ∧ p.2 < cols ∧ mask p.1 p.2 = true := by
  unfold validPixels
  simp [Finset.mem_filter, Finset.mem_product, and_assoc]

/-- **C3** (counterexample to the claim as stated): a `1 × 2` frame with a
negative intensity at column 0 (`[-1, 3]`) and an all-valid mask has
nonzero total intensity `2`, yet the estimator returns `cx = 3/2`, which
exceeds `cols - 1 = 1`: the claim fails for frames with negative
intensities. -/
theorem center_of_mass_initial_guess_out_of_bounds :
    totalIntensity 1 2 (fun _ c => if c = 0 then -1 else 3) (fun _ _ => true) ≠ 0 ∧
    (center_of_mass_initial_guess 1 2 (fun _ c => if c = 0 then -1 else 3)
        (fun _ _ => true)).1 = 3/2 ∧
    ¬ ((center_of_mass_initial_guess 1 2 (fun _ c => if c = 0 then -1 else 3)
        (fun _ _ => true)).1 ≤ (2 : ℚ) - 1) := by
  refine ⟨?_, ?_, ?_⟩
  · with_unfolding_all decide
  · with_unfolding_all decide
  · with_unfolding_all decide

/-- **C3** (amended): for every frame with *nonnegative* intensities and
every validity mask whose total selected intensity is nonzero, the
initial estimator returns a center `(cx, cy)` with `0 ≤ cx ≤ cols - 1`
and `0 ≤ cy ≤ rows - 1`, i.e. within the frame bounds. -/
theorem center_of_mass_initial_guess_in_bounds (rows cols : ℕ)
    (image : ℕ → ℕ → ℚ) (mask : ℕ → ℕ → Bool)
    (hI : ∀ r c, 0 ≤ image r c)
    (hT : totalIntensity rows cols image mask ≠ 0) :
    0 ≤ (center_of_mass_initial_guess rows cols image mask).1 ∧
    (center_of_mass_initial_guess rows cols image mask).1 ≤ (cols : ℚ) - 1 ∧
    0 ≤ (center_of_mass_initial_guess rows cols image mask).2 ∧
    (center_of_mass_initial_guess rows cols image mask).2 ≤ (rows : ℚ) - 1 := by
  have hT0 : 0 ≤ totalIntensity rows cols image mask :=
    Finset.sum_nonneg fun p _ => hI p.1 p.2
  have hpos : 0 < totalIntensity rows cols image mask := lt_of_le_of_ne hT0 (Ne.symm hT)
  unfold center_of_mass_initial_guess
  rw [if_neg hT]
  have hxnum : 0 ≤ ∑ p ∈ validPixels rows cols mask, (p.2 : ℚ) * image p.1 p.2 :=
    Finset.sum_nonneg fun p _ => mul_nonneg (by positivity) (hI p.1 p.2)
  have hynum : 0 ≤ ∑ p ∈ validPixels rows cols mask, (p.1 : ℚ) * image p.1 p.2 :=
    Finset.sum_nonneg fun p _ => mul_nonneg (by positivity) (hI p.1 p.2)
  have hxbound : ∑ p ∈ validPixels rows cols mask, (p.2 : ℚ) * image p.1 p.2 ≤
      ((cols : ℚ) - 1) * totalIntensity rows cols image mask := by
    rw [totalIntensity, Finset.mul_sum]
    apply Finset.sum_le_sum
    intro p hp
    have hlt : p.2 < cols := (mem_validPixels.mp hp).2.1
    have : (p.2 : ℚ) ≤ (cols : ℚ) - 1 := by
      have : (p.2 : ℚ) + 1 ≤ (cols : ℚ) := by exact_mod_cast Nat.succ_le_of_lt hlt
      linarith
    exact mul_le_mul_of_nonneg_right this (hI p.1 p.2)
  have hybound : ∑ p ∈ validPixels rows cols mask, (p.1 : ℚ) * image p.1 p.2 ≤
      ((rows : ℚ) - 1) * totalIntensity rows cols image mask := by
    rw [totalIntensity, Finset.mul_sum]
    apply Finset.sum_le_sum
    intro p hp
    have hlt : p.1 < rows := (mem_validPixels.mp hp).1
    have : (p.1 : ℚ) ≤ (rows : ℚ) - 1 := by
      have : (p.1 : ℚ) + 1 ≤ (rows : ℚ) := by exact_mod_cast Nat.succ_le_of_lt hlt
      linarith
    exact mul_le_mul_of_nonneg_right this (hI p.1 p.2)
  refine ⟨div_nonneg hxnum hT0, ?_, div_nonneg hynum hT0, ?_⟩
  · rw [div_le_iff₀ hpos]
    exact hxbound
  · rw [div_le_iff₀ hpos]
    exact hybound

/-- Witness for the amended C3 theorem at a concrete input: a `1 × 1`
all-ones frame with an all-valid mask. -/
theorem center_of_mass_initial_guess_in_bounds_witness :
    0 ≤ (center_of_mass_initial_guess 1 1 (fun _ _ => (1 : ℚ)) (fun _ _ => true)).1 ∧
    (center_of_mass_initial_guess 1 1 (fun _ _ => (1 : ℚ)) (fun _ _ => true)).1 ≤ ((1 : ℕ) : ℚ) - 1 ∧
    0 ≤ (center_of_mass_initial_guess 1 1 (fun _ _ => (1 : ℚ)) (fun _ _ => true)).2 ∧
    (center_of_mass_initial_guess 1 1 (fun _ _ => (1 : ℚ)) (fun _ _ => true)).2 ≤ ((1 : ℕ) : ℚ) - 1 :=
  center_of_mass_initial_guess_in_bounds 1 1 (fun _ _ => (1 : ℚ)) (fun _ _ => true)
    (fun _ _ => by norm_num) (by with_unfolding_all decide)

/-! ## Frame scheduler: sampling policy (`process_images_chunked`, step 3) -/

/-- The sorted list of sampled frame indices built by
`process_images_chunked`: `sorted(set([0, n-1]) | {i in range(n) : i % k == 0})`. -/
def framesToProcess (n k : ℕ) : List ℕ :=
  (insert 0 (insert (n - 1) ((Finset.range n).filter (fun i => i % k = 0)))).sort (· ≤ ·)

/-- The sampled frames, sorted ascending, are exactly the ascending filter
of `0, …, n-1` by the sampling predicate. -/
theorem framesToProcess_eq_filter_range (n k : ℕ) (hn : 1 ≤ n) :
    framesToProcess n k =
      (List.range n).filter (fun i => i == 0 || i == n - 1 || i % k == 0) := by
  have hperm : (framesToProcess n k).Perm
      ((List.range n).filter (fun i => i == 0 || i == n - 1 || i % k == 0)) := by
    apply List.perm_of_nodup_nodup_toFinset_eq
    · exact Finset.sort_nodup _ _
    · exact List.Nodup.filter _ (List.nodup_range n)
    · unfold framesToProcess
      rw [Finset.sort_toFinset]
      ext x
      simp only [Finset.mem_insert, Finset.mem_filter, Finset.mem_range,
        List.mem_toFinset, List.mem_filter, List.mem_range, Bool.or_eq_true,
        beq_iff_eq, decide_eq_true_eq]
      omega
  have hs1 : (framesToProcess n k).Sorted (· ≤ ·) := Finset.sort_sorted _ _
  have hs2 : ((List.range n).filter
      (fun i => i == 0 || i == n - 1 || i % k == 0)).Sorted (· ≤ ·) := by
    apply List.Pairwise.filter
    exact List.Pairwise.imp le_of_lt (List.pairwise_lt_range n)
  exact List.eq_of_perm_of_sorted hperm hs1 hs2

theorem framesToProcess_nodup (n k : ℕ) : (framesToProcess n k).Nodup :=
  Finset.sort_nodup _ _

theorem mem_framesToProcess {n k i : ℕ} :
    i ∈ framesToProcess n k ↔ i = 0 ∨ i = n - 1 ∨ (i < n ∧ i % k = 0) := by
  unfold framesToProcess
  rw [Finset.mem_sort]
  simp [Finset.mem_insert, Finset.mem_filter, Finset.mem_range]

theorem mem_framesToProcess_lt {n k i : ℕ} (hn : 1 ≤ n)
    (h : i ∈ framesToProcess n k) : i < n := by
  rw [mem_framesToProcess] at h
  omega

set_option maxRecDepth 10000 in
/-- **C4**: for every dataset of `n ≥ 1` frames and every
`frame_interval k ≥ 1`, the set of sampled frame indices is exactly
`{0, n-1} ∪ {i < n : i % k = 0}`; in particular for `n = 1000` and
`k = 100` it is exactly `{0, 100, …, 900, 999}`, of size 11. -/
theorem framesToProcess_spec (n k : ℕ) (_hn : 1 ≤ n) (_hk : 1 ≤ k) :
    (framesToProcess n k).toFinset =
      {0, n - 1} ∪ (Finset.range n).filter (fun i => i % k = 0) ∧
    framesToProcess 1000 100 =
      [0, 100, 200, 300, 400, 500, 600, 700, 800, 900, 999] ∧
    (framesToProcess 1000 100).length = 11 := by
  have hconc : framesToProcess 1000 100 =
      [0, 100, 200, 300, 400, 500, 600, 700, 800, 900, 999] := by
    rw [framesToProcess_eq_filter_range 1000 100 (by norm_num)]
    decide
  refine ⟨?_, hconc, by rw [hconc]; rfl⟩
  unfold framesToProcess
  rw [Finset.sort_toFinset]
  ext x
  simp only [Finset.mem_insert, Finset.mem_filter, Finset.mem_range,
    Finset.mem_union, Finset.mem_singleton]
  tauto

/-- Witness for C4 at a concrete input `n = 2`, `k = 1`. -/
theorem framesToProcess_spec_witness :
    ((framesToProcess 2 1).toFinset =
      {0, 2 - 1} ∪ (Finset.range 2).filter (fun i => i % 1 = 0) ∧
    framesToProcess 1000 100 =
      [0, 100, 200, 300, 400, 500, 600, 700, 800, 900, 999] ∧
    (framesToProcess 1000 100).length = 11) :=
  framesToProcess_spec 2 1 (by norm_num) (by norm_num)

/-! ## Frame scheduler: result records, validation and aggregation -/

/-- A Result Record: `(frame_number, data_index, center_x, center_y)`,
with `none` as the not-a-number sentinel for a coordinate. -/
structure ResultRecord where
  frame_number : ℕ
  data_index : ℤ
  center_x : Option ℚ
  center_y : Option ℚ
deriving DecidableEq

/-- The validation step of `compute_center_for_frame` (also used by
`compute_centers_for_chunk`): the refined center is kept only when both
coordinates are finite and `xmin ≤ cx < xmax` and `ymin ≤ cy < ymax`;
otherwise both coordinates become the NaN sentinel. -/
def validateCenter (xmin xmax ymin ymax : ℚ) (c : Option ℚ × Option ℚ) :
    Option ℚ × Option ℚ :=
  match c with
  | (some cx, some cy) =>
    if xmin ≤ cx ∧ cx < xmax ∧ ymin ≤ cy ∧ cy < ymax then (some cx, some cy)
    else (none, none)
  | _ => (none, none)

/-- **C6**: a refined center `(cx, cy)` survives validation unchanged iff
both coordinates are finite and inside `[xmin,xmax) × [ymin,ymax)`;
otherwise both coordinates (not just the offending one) are replaced by
the NaN sentinel. -/
theorem validateCenter_spec (xmin xmax ymin ymax : ℚ) (cx cy : Option ℚ) :
    ((∃ qx qy, cx = some qx ∧ cy = some qy ∧
        xmin ≤ qx ∧ qx < xmax ∧ ymin ≤ qy ∧ qy < ymax) →
      validateCenter xmin xmax ymin ymax (cx, cy) = (cx, cy)) ∧
    (¬ (∃ qx qy, cx = some qx ∧ cy = some qy ∧
        xmin ≤ qx ∧ qx < xmax ∧ ymin ≤ qy ∧ qy < ymax) →
      validateCenter xmin xmax ymin ymax (cx, cy) = (none, none)) := by
  constructor
  · rintro ⟨qx, qy, rfl, rfl, h1, h2, h3, h4⟩
    simp [validateCenter, h1, h2, h3, h4]
  · intro h
    match cx, cy with
    | none, _ => rfl
    | some qx, none => rfl
    | some qx, some qy =>
      simp only [validateCenter]
      split_ifs with hc
      · exact absurd ⟨qx, qy, rfl, rfl, hc.1, hc.2.1, hc.2.2.1, hc.2.2.2⟩ h
      · rfl

/-- Witness for C6 at concrete inputs: an in-bounds center is kept, an
out-of-bounds one is replaced by the double sentinel. -/
theorem validateCenter_spec_witness :
    validateCenter 0 10 0 10 (some 2, some 3) = (some 2, some 3) ∧
    validateCenter 0 10 0 10 (some 11, some 3) = (none, none) :=
  ⟨(validateCenter_spec 0 10 0 10 (some 2) (some 3)).1
      ⟨2, 3, rfl, rfl, by norm_num, by norm_num, by norm_num, by norm_num⟩,
   (validateCenter_spec 0 10 0 10 (some 11) (some 3)).2
      (by rintro ⟨qx, qy, hqx, _, _, h2, _, _⟩; cases hqx; norm_num at h2)⟩

/-! ## Frame scheduler: aggregation (`process_images_chunked`, steps 1-2, 5-7) -/

/-- The image file as seen by the scheduler: a frame count and the
optional `/entry/data/index` dataset. -/
structure H5File where
  n_images : ℕ
  index : Option (ℕ → ℤ)

/-- Step 2 of `process_images_chunked`: the DataFrame with one row per
frame, centers initialized to the NaN sentinel. -/
def initTable (n : ℕ) (idx : ℕ → ℤ) : List ResultRecord :=
  (List.range n).map fun i => ⟨i, idx i, none, none⟩

/-- One `df.at[fn, ...] = cx, cy` update of step 6: write the computed
center into the row(s) whose frame number matches. -/
def placeResult (tbl : List ResultRecord) (res : ℕ × Option ℚ × Option ℚ) :
    List ResultRecord :=
  tbl.map fun r =>
    if r.frame_number = res.1 then
      ⟨r.frame_number, r.data_index, res.2.1, res.2.2⟩
    else r

/-- Step 6 of `process_images_chunked`: fold all collected results into
the table. -/
def placeAll (tbl : List ResultRecord) (results : List (ℕ × Option ℚ × Option ℚ)) :
    List ResultRecord :=
  results.foldl placeResult tbl

/-- Step 7 of `process_images_chunked`:
`df.dropna(subset=["center_x", "center_y"])`, keeping only rows whose
center coordinates are both non-NaN. -/
def dropNaRows (tbl : List ResultRecord) : List ResultRecord :=
  tbl.filter fun r => r.center_x.isSome && r.center_y.isSome

/-- Steps 2-7 of `process_images_chunked` for a file whose index dataset
is present: initialize the table, compute a (validated) center for every
sampled frame, place the results, and drop the NaN rows.  The per-frame
computation (load, refine, validate) is abstracted as `compute`. -/
def aggregateTable (n k : ℕ) (idx : ℕ → ℤ)
    (compute : ℕ → Option ℚ × Option ℚ) : List ResultRecord :=
  dropNaRows (placeAll (initTable n idx)
    ((framesToProcess n k).map fun fn => (fn, compute fn)))

/-- The error message raised when `/entry/data/index` is missing. -/
def indexErrorMsg : String :=
  "Dataset /entry/data/index is required for correct processing but was not found in the file."

/-- `process_images_chunked`: step 1 reads the frame count and the index
dataset, raising an error when the latter is absent; otherwise the
sampled frames are processed and aggregated into the result table. -/
def process_images_chunked (f : H5File) (k : ℕ)
    (compute : ℕ → Option ℚ × Option ℚ) : Except String (List ResultRecord) :=
  match f.index with
  | none => Except.error indexErrorMsg
  | some idx => Except.ok (aggregateTable f.n_images k idx compute)

/-- The cumulative effect of folding results into a table row by row:
each row is transformed by successively applying every matching result. -/
def applyResults (r : ResultRecord) (results : List (ℕ × Option ℚ × Option ℚ)) :
    ResultRecord :=
  results.foldl
    (fun r res =>
      if r.frame_number = res.1 then
        ⟨r.frame_number, r.data_index, res.2.1, res.2.2⟩
      else r) r

theorem placeAll_eq_map (results : List (ℕ × Option ℚ × Option ℚ)) :
    ∀ tbl, placeAll tbl results = tbl.map (fun r => applyResults r results) := by
  induction results with
  | nil =>
    intro tbl
    simp [placeAll, applyResults]
  | cons res rest ih =>
    intro tbl
    show placeAll (placeResult tbl res) rest = _
    rw [ih, placeResult, List.map_map]
    rfl

theorem applyResults_frame_number (r : ResultRecord)
    (results : List (ℕ × Option ℚ × Option ℚ)) :
    (applyResults r results).frame_number = r.frame_number := by
  induction results generalizing r with
  | nil => rfl
  | cons res rest ih =>
    show (applyResults (if _ then _ else _) rest).frame_number = _
    split_ifs with h
    · rw [ih]
    · rw [ih]

theorem applyResults_not_mem (r : ResultRecord)
    (results : List (ℕ × Option ℚ × Option ℚ))
    (h : r.frame_number ∉ results.map Prod.fst) :
    applyResults r results = r := by
  induction results with
  | nil => rfl
  | cons res rest ih =>
    simp only [List.map_cons, List.mem_cons] at h
    push_neg at h
    show applyResults (if _ then _ else _) rest = r
    rw [if_neg h.1]
    exact ih h.2

theorem applyResults_head (r : ResultRecord) (res : ℕ × Option ℚ × Option ℚ)
    (rest : List (ℕ × Option ℚ × Option ℚ))
    (hr : r.frame_number = res.1) (h : r.frame_number ∉ rest.map Prod.fst) :
    applyResults r (res :: rest) =
      ⟨r.frame_number, r.data_index, res.2.1, res.2.2⟩ := by
  show applyResults (if _ then _ else _) rest = _
  rw [if_pos hr]
  exact applyResults_not_mem _ rest h

theorem applyResults_append (r : ResultRecord)
    (l₁ l₂ : List (ℕ × Option ℚ × Option ℚ))
    (h : r.frame_number ∉ l₁.map Prod.fst) :
    applyResults r (l₁ ++ l₂) = applyResults r l₂ := by
  unfold applyResults
  rw [List.foldl_append]
  rw [show List.foldl _ r l₁ = applyResults r l₁ from rfl,
    applyResults_not_mem r l₁ h]

/-- The table after placing all per-frame results: row `i` carries the
computed center when `i` was sampled, and the initial NaN pair otherwise. -/
theorem placeAll_lookup (n : ℕ) (idx : ℕ → ℤ) (frames : List ℕ)
    (compute : ℕ → Option ℚ × Option ℚ) (hnd : frames.Nodup) :
    placeAll (initTable n idx) (frames.map fun fn => (fn, compute fn)) =
      (List.range n).map (fun i =>
        if i ∈ frames then ⟨i, idx i, (compute i).1, (compute i).2⟩
        else ⟨i, idx i, none, none⟩) := by
  rw [placeAll_eq_map, initTable, List.map_map]
  apply List.map_congr_left
  intro i _hi
  show applyResults ⟨i, idx i, none, none⟩ (frames.map fun fn => (fn, compute fn)) = _
  by_cases hmem : i ∈ frames
  · obtain ⟨l₁, l₂, rfl⟩ := List.append_of_mem hmem
    have hnd2 := List.nodup_append.mp hnd
    have hi1 : i ∉ l₁ := fun hc => hnd2.2.2 hc (List.mem_cons_self i l₂)
    have hi2 : i ∉ l₂ := (List.nodup_cons.mp hnd2.2.1).1
    rw [if_pos hmem, List.map_append, List.map_cons,
      applyResults_append _ _ _ (by simpa using hi1),
      applyResults_head _ _ _ rfl (by simpa using hi2)]
  · rw [if_neg hmem]
    exact applyResults_not_mem _ _ (by simpa using hmem)

/-- **C2** (counterexample to the claim as stated): a completed run over a
single-frame dataset whose only (sampled) frame fails produces an *empty*
result table — the failed frame is dropped by the final
`dropna`, not kept as a row with sentinel coordinates. -/
theorem process_images_chunked_no_sentinel_rows :
    process_images_chunked ⟨1, some fun _ => 0⟩ 1 (fun _ => (none, none)) =
      Except.ok [] ∧
    0 ∈ framesToProcess 1 1 := by
  have hf : framesToProcess 1 1 = [0] := by
    rw [framesToProcess_eq_filter_range 1 1 (by norm_num)]
    rfl
  constructor
  · show Except.ok (aggregateTable 1 1 _ _) = Except.ok []
    unfold aggregateTable
    rw [hf]
    rfl
  · rw [hf]
    exact List.mem_singleton.mpr rfl

/-- **C2** (amended): for every completed run of the chunked scheduler,
the output table contains a row for a frame iff the frame was sampled
*and* its validated center has both coordinates non-NaN; such a row
carries exactly the frame number, its data index, and the computed
center.  Sampled frames whose computation failed are absent from the
table (dropped by `dropna`), not present as sentinel rows. -/
theorem aggregateTable_mem (n k : ℕ) (hn : 1 ≤ n) (_hk : 1 ≤ k) (idx : ℕ → ℤ)
    (compute : ℕ → Option ℚ × Option ℚ) (r : ResultRecord) :
    r ∈ aggregateTable n k idx compute ↔
      (r.frame_number ∈ framesToProcess n k ∧
       (compute r.frame_number).1.isSome = true ∧
       (compute r.frame_number).2.isSome = true ∧
       r = ⟨r.frame_number, idx r.frame_number,
            (compute r.frame_number).1, (compute r.frame_number).2⟩) := by
  unfold aggregateTable dropNaRows
  rw [placeAll_lookup n idx _ compute (framesToProcess_nodup n k), List.mem_filter]
  constructor
  · rintro ⟨hmem, hfilt⟩
    rw [List.mem_map] at hmem
    obtain ⟨i, hirange, hrow⟩ := hmem
    by_cases hi : i ∈ framesToProcess n k
    · rw [if_pos hi] at hrow
      subst hrow
      simp only [Bool.and_eq_true] at hfilt
      exact ⟨hi, hfilt.1, hfilt.2, rfl⟩
    · rw [if_neg hi] at hrow
      subst hrow
      simp at hfilt
  · rintro ⟨hmem, h1, h2, hr⟩
    have hcx := congrArg ResultRecord.center_x hr
    have hcy := congrArg ResultRecord.center_y hr
    constructor
    · rw [List.mem_map]
      refine ⟨r.frame_number,
        List.mem_range.mpr (mem_framesToProcess_lt hn hmem), ?_⟩
      rw [if_pos hmem, ← hr]
    · rw [Bool.and_eq_true, hcx, hcy]
      exact ⟨h1, h2⟩

/-- Witness for the amended C2 theorem at a concrete input: a one-frame
dataset whose frame succeeds, whose row then appears in the table. -/
theorem aggregateTable_mem_witness :
    (⟨0, 7, some 2, some 3⟩ : ResultRecord) ∈
      aggregateTable 1 1 (fun _ => 7) (fun _ => (some 2, some 3)) :=
  (aggregateTable_mem 1 1 (by norm_num) (by norm_num) (fun _ => 7)
      (fun _ => (some 2, some 3)) ⟨0, 7, some 2, some 3⟩).mpr
    ⟨mem_framesToProcess.mpr (Or.inl rfl), rfl, rfl, rfl⟩

/-- **C7**: under the strict index policy, when `/entry/data/index` is
absent `process_images_chunked` raises the index error before any
per-frame work is dispatched: the outcome is the error message and does
not depend on the per-frame computation at all (no frame is processed,
no partial table is produced). -/
theorem process_images_chunked_missing_index (f : H5File) (h : f.index = none)
    (k : ℕ) (compute : ℕ → Option ℚ × Option ℚ) :
    process_images_chunked f k compute = Except.error indexErrorMsg ∧
    ∀ c : ℕ → Option ℚ × Option ℚ,
      process_images_chunked f k compute = process_images_chunked f k c := by
  unfold process_images_chunked
  rw [h]
  exact ⟨rfl, fun _ => rfl⟩

/-- Witness for C7 at a concrete input: a 5-frame file with no index
dataset. -/
theorem process_images_chunked_missing_index_witness :
    process_images_chunked ⟨5, none⟩ 2 (fun _ => (some 1, some 1)) =
      Except.error indexErrorMsg ∧
    process_images_chunked ⟨5, none⟩ 2 (fun _ => (some 1, some 1)) =
      process_images_chunked ⟨5, none⟩ 2 (fun _ => (none, none)) :=
  ⟨(process_images_chunked_missing_index ⟨5, none⟩ rfl 2 _).1,
   (process_images_chunked_missing_index ⟨5, none⟩ rfl 2 _).2 _⟩

/-! ## Asymmetry metric: opposite-wedge comparison
(`center_asymmetry_metric`, final loop)

A wedge radial profile is a vector of per-bin medians, each either a
finite value or the NaN sentinel; profiles are modelled as a function
`prof : wedge index → bin index → Option ℚ`.  The loop compares wedge
`i` against wedge `i + n_wedges/2` bin by bin over the bins where both
are finite. -/

/-- The list of bin-by-bin differences `p1[valid] - p2[valid]` between
wedge `i` and wedge `i + half`, over the bins where both are finite. -/
def wedgePairDiffs (prof : ℕ → ℕ → Option ℚ) (half nb i : ℕ) : List ℚ :=
  (List.range nb).filterMap fun b =>
    match prof i b, prof (i + half) b with
    | some a, some c => some (a - c)
    | _, _ => none

/-- The accumulation loop of `center_asymmetry_metric`: fold over the
first-half wedges, adding the summed squared difference of each pair to
`total_diff` and its comparable-bin count to `count` (the `if
np.any(valid)` guard of the source skips empty additions, which is the
identity), then return `total_diff / count`, or `+∞` when `count = 0`. -/
def centerAsymmetryReduce (nw nb : ℕ) (prof : ℕ → ℕ → Option ℚ) : WithTop ℚ :=
  let acc := (List.range (nw / 2)).foldl
    (fun (acc : ℚ × ℕ) i =>
      (acc.1 + ((wedgePairDiffs prof (nw / 2) nb i).map fun d => d ^ 2).sum,
       acc.2 + (wedgePairDiffs prof (nw / 2) nb i).length))
    ((0 : ℚ), (0 : ℕ))
  if 0 < acc.2 then ((acc.1 / (acc.2 : ℚ) : ℚ) : WithTop ℚ) else ⊤

/-- Spec-side count of comparable bins over all compared wedge pairs. -/
def comparableCount (nw nb : ℕ) (prof : ℕ → ℕ → Option ℚ) : ℕ :=
  ∑ i ∈ Finset.range (nw / 2), ∑ b ∈ Finset.range nb,
    if (prof i b).isSome = true ∧ (prof (i + nw / 2) b).isSome = true then 1 else 0

/-- Spec-side total of squared bin-by-bin differences over comparable bins. -/
def sqDiffTotal (nw nb : ℕ) (prof : ℕ → ℕ → Option ℚ) : ℚ :=
  ∑ i ∈ Finset.range (nw / 2), ∑ b ∈ Finset.range nb,
    match prof i b, prof (i + nw / 2) b with
    | some a, some c => (a - c) ^ 2
    | _, _ => 0

theorem wedgePairDiffs_length (prof : ℕ → ℕ → Option ℚ) (half nb i : ℕ) :
    (wedgePairDiffs prof half nb i).length =
      ∑ b ∈ Finset.range nb,
        if (prof i b).isSome = true ∧ (prof (i + half) b).isSome = true then 1 else 0 := by
  induction nb with
  | zero => rfl
  | succ m ih =>
    unfold wedgePairDiffs at ih ⊢
    rw [List.range_succ, List.filterMap_append, List.length_append, ih,
      Finset.sum_range_succ]
    congr 1
    rcases h1 : prof i m with _ | a <;> rcases h2 : prof (i + half) m with _ | c <;>
      simp [h1, h2]

theorem wedgePairDiffs_sq_sum (prof : ℕ → ℕ → Option ℚ) (half nb i : ℕ) :
    ((wedgePairDiffs prof half nb i).map fun d => d ^ 2).sum =
      ∑ b ∈ Finset.range nb,
        (match prof i b, prof (i + half) b with
         | some a, some c => (a - c) ^ 2
         | _, _ => 0) := by
  induction nb with
  | zero => rfl
  | succ m ih =>
    unfold wedgePairDiffs at ih ⊢
    rw [List.range_succ, List.filterMap_append, List.map_append, List.sum_append,
      ih, Finset.sum_range_succ]
    congr 1
    rcases h1 : prof i m with _ | a <;> rcases h2 : prof (i + half) m with _ | c <;>
      simp [h1, h2]

theorem centerAsymmetryReduce_acc (nw nb : ℕ) (prof : ℕ → ℕ → Option ℚ) :
    ∀ (m : ℕ) (a : ℚ) (c : ℕ),
      (List.range m).foldl
        (fun (acc : ℚ × ℕ) i =>
          (acc.1 + ((wedgePairDiffs prof (nw / 2) nb i).map fun d => d ^ 2).sum,
           acc.2 + (wedgePairDiffs prof (nw / 2) nb i).length))
        (a, c) =
      (a + ∑ i ∈ Finset.range m,
            ((wedgePairDiffs prof (nw / 2) nb i).map fun d => d ^ 2).sum,
       c + ∑ i ∈ Finset.range m, (wedgePairDiffs prof (nw / 2) nb i).length) := by
  intro m
  induction m with
  | zero => intro a c; simp
  | succ t ih =>
    intro a c
    rw [List.range_succ, List.foldl_append, ih, Finset.sum_range_succ,
      Finset.sum_range_succ]
    simp only [List.foldl_cons, List.foldl_nil]
    congr 1 <;> ring

/-- The accumulators of the loop equal the spec-side total and count. -/
theorem centerAsymmetryReduce_eq (nw nb : ℕ) (prof : ℕ → ℕ → Option ℚ) :
    centerAsymmetryReduce nw nb prof =
      if 0 < comparableCount nw nb prof then
        ((sqDiffTotal nw nb prof / (comparableCount nw nb prof : ℚ) : ℚ) : WithTop ℚ)
      else ⊤ := by
  unfold centerAsymmetryReduce
  rw [centerAsymmetryReduce_acc nw nb prof (nw / 2) 0 0]
  simp only [zero_add]
  have hcount : ∑ i ∈ Finset.range (nw / 2), (wedgePairDiffs prof (nw / 2) nb i).length =
      comparableCount nw nb prof :=
    Finset.sum_congr rfl fun i _ => wedgePairDiffs_length prof (nw / 2) nb i
  have hsum : ∑ i ∈ Finset.range (nw / 2),
      ((wedgePairDiffs prof (nw / 2) nb i).map fun d => d ^ 2).sum =
      sqDiffTotal nw nb prof :=
    Finset.sum_congr rfl fun i _ => wedgePairDiffs_sq_sum prof (nw / 2) nb i
  rw [hcount, hsum]

theorem sqDiffTotal_nonneg (nw nb : ℕ) (prof : ℕ → ℕ → Option ℚ) :
    0 ≤ sqDiffTotal nw nb prof := by
  apply Finset.sum_nonneg
  intro i _
  apply Finset.sum_nonneg
  intro b _
  rcases prof i b with _ | a <;> rcases prof (i + nw / 2) b with _ | c <;>
    first
    | exact le_refl 0
    | exact sq_nonneg _

theorem comparableCount_pos_of_mem {nw nb : ℕ} {prof : ℕ → ℕ → Option ℚ}
    {i b : ℕ} (hi : i < nw / 2) (hb : b < nb)
    (hcond : (prof i b).isSome = true ∧ (prof (i + nw / 2) b).isSome = true) :
    1 ≤ comparableCount nw nb prof := by
  have h1 : (1 : ℕ) ≤ ∑ b' ∈ Finset.range nb,
      (if (prof i b').isSome = true ∧ (prof (i + nw / 2) b').isSome = true
       then 1 else 0) := by
    have := Finset.single_le_sum
      (f := fun b' => if (prof i b').isSome = true ∧ (prof (i + nw / 2) b').isSome = true
        then (1 : ℕ) else 0)
      (fun b' _ => Nat.zero_le _) (Finset.mem_range.mpr hb)
    dsimp only at this
    rwa [if_pos hcond] at this
  have h2 : (∑ b' ∈ Finset.range nb,
      (if (prof i b').isSome = true ∧ (prof (i + nw / 2) b').isSome = true
       then 1 else 0)) ≤ comparableCount nw nb prof := by
    unfold comparableCount
    exact Finset.single_le_sum
      (f := fun i' => ∑ b' ∈ Finset.range nb,
        (if (prof i' b').isSome = true ∧ (prof (i' + nw / 2) b').isSome = true
         then (1 : ℕ) else 0))
      (fun i' _ => Nat.zero_le _) (Finset.mem_range.mpr hi)
  omega

/-- **C5**: for every wedge-profile family (hence for every candidate
center, frame and mask producing it), the final reduction of
`center_asymmetry_metric` is the sum of squared bin-by-bin differences
between wedge `i` and wedge `i + n_wedges/2` over the bins where both
profiles are finite, divided by the number of comparable bins; it is
non-negative, and it is `+∞` iff no wedge pair has a comparable bin. -/
theorem center_asymmetry_metric_spec (nw nb : ℕ) (prof : ℕ → ℕ → Option ℚ) :
    0 ≤ centerAsymmetryReduce nw nb prof ∧
    (comparableCount nw nb prof ≠ 0 →
      centerAsymmetryReduce nw nb prof =
        ((sqDiffTotal nw nb prof / (comparableCount nw nb prof : ℚ) : ℚ) : WithTop ℚ)) ∧
    (centerAsymmetryReduce nw nb prof = ⊤ ↔
      ∀ i, i < nw / 2 → ∀ b, b < nb →
        ¬ ((prof i b).isSome = true ∧ (prof (i + nw / 2) b).isSome = true)) := by
  rw [centerAsymmetryReduce_eq]
  refine ⟨?_, ?_, ?_⟩
  · split_ifs with hc
    · have h : (0 : ℚ) ≤ sqDiffTotal nw nb prof / (comparableCount nw nb prof : ℚ) :=
        div_nonneg (sqDiffTotal_nonneg nw nb prof) (by positivity)
      exact_mod_cast h
    · exact le_top
  · intro h
    rw [if_pos (Nat.pos_of_ne_zero h)]
  · split_ifs with hc
    · constructor
      · intro habs
        exact absurd habs (WithTop.coe_ne_top)
      · intro hall
        exfalso
        have h0 : comparableCount nw nb prof = 0 := by
          unfold comparableCount
          apply Finset.sum_eq_zero
          intro i hi
          apply Finset.sum_eq_zero
          intro b hb
          rw [if_neg (hall i (Finset.mem_range.mp hi) b (Finset.mem_range.mp hb))]
        omega
    · constructor
      · intro _ i hi b hb hcond
        have := comparableCount_pos_of_mem hi hb hcond
        omega
      · intro _
        rfl

/-- Witness for C5 at a concrete input: `n_wedges = 2`, one bin, both
profiles finite. -/
theorem center_asymmetry_metric_spec_witness :
    0 ≤ centerAsymmetryReduce 2 1 (fun i _ => some (i : ℚ)) ∧
    (comparableCount 2 1 (fun i _ => some (i : ℚ)) ≠ 0 →
      centerAsymmetryReduce 2 1 (fun i _ => some (i : ℚ)) =
        ((sqDiffTotal 2 1 (fun i _ => some (i : ℚ)) /
          (comparableCount 2 1 (fun i _ => some (i : ℚ)) : ℚ) : ℚ) : WithTop ℚ)) ∧
    (centerAsymmetryReduce 2 1 (fun i _ => some (i : ℚ)) = ⊤ ↔
      ∀ i, i < 2 / 2 → ∀ b, b < 1 →
        ¬ ((some ((i : ℕ) : ℚ)).isSome = true ∧
           (some ((i + 2 / 2 : ℕ) : ℚ)).isSome = true)) :=
  center_asymmetry_metric_spec 2 1 (fun i _ => some (i : ℚ))

/-- The reduction only reads profiles of wedges `i < 2*(n_wedges/2)`:
wedge `i` and wedge `i + n_wedges/2` for `i < n_wedges/2`. -/
theorem centerAsymmetryReduce_congr (nw nb : ℕ) (p q : ℕ → ℕ → Option ℚ)
    (h : ∀ i, i < 2 * (nw / 2) → p i = q i) :
    centerAsymmetryReduce nw nb p = centerAsymmetryReduce nw nb q := by
  have hd : ∀ i, i < nw / 2 →
      wedgePairDiffs p (nw / 2) nb i = wedgePairDiffs q (nw / 2) nb i := by
    intro i hi
    unfold wedgePairDiffs
    rw [h i (by omega), h (i + nw / 2) (by omega)]
  unfold centerAsymmetryReduce
  have hfold : ∀ a : ℚ × ℕ,
      (List.range (nw / 2)).foldl
        (fun (acc : ℚ × ℕ) i =>
          (acc.1 + ((wedgePairDiffs p (nw / 2) nb i).map fun d => d ^ 2).sum,
           acc.2 + (wedgePairDiffs p (nw / 2) nb i).length)) a =
      (List.range (nw / 2)).foldl
        (fun (acc : ℚ × ℕ) i =>
          (acc.1 + ((wedgePairDiffs q (nw / 2) nb i).map fun d => d ^ 2).sum,
           acc.2 + (wedgePairDiffs q (nw / 2) nb i).length)) a := by
    intro a
    apply List.foldl_ext
    intro acc i hi
    rw [hd i (List.mem_range.mp hi)]
  rw [hfold]

/-- **C10**: for every odd `n_wedges ≥ 3`, the metric pairs wedge `i`
with wedge `i + n_wedges/2` for `i < n_wedges/2`, so it only reads
wedges `0, …, n_wedges - 2`: the last wedge never contributes (the
reduction is unchanged by arbitrary changes to wedge `n_wedges - 1`),
and the pairing offset `n_wedges/2 = (n_wedges-1)/2` is not the
angularly opposite half-turn `n_wedges/2` sectors (as a rational). -/
theorem center_asymmetry_metric_odd_pairing (n : ℕ) (hodd : Odd n) (h3 : 3 ≤ n) :
    (∀ nb : ℕ, ∀ p q : ℕ → ℕ → Option ℚ,
      (∀ i, i < n - 1 → p i = q i) →
      centerAsymmetryReduce n nb p = centerAsymmetryReduce n nb q) ∧
    2 * (n / 2) = n - 1 ∧
    ((n / 2 : ℕ) : ℚ) ≠ (n : ℚ) / 2 := by
  obtain ⟨m, hm⟩ := hodd
  have hdiv : n / 2 = m := by omega
  refine ⟨?_, by omega, ?_⟩
  · intro nb p q hpq
    apply centerAsymmetryReduce_congr
    intro i hi
    exact hpq i (by omega)
  · rw [hdiv, hm]
    push_cast
    intro hcon
    have : (2 : ℚ) * m = 2 * m + 1 := by
      field_simp at hcon
      linarith
    linarith

/-- Witness for C10 at `n_wedges = 3`: changing only the profile of the
last wedge leaves the metric unchanged. -/
theorem center_asymmetry_metric_odd_pairing_witness :
    centerAsymmetryReduce 3 1 (fun i _ => if i = 2 then some 5 else some 1) =
      centerAsymmetryReduce 3 1 (fun i _ => if i = 2 then none else some 1) ∧
    2 * (3 / 2) = 3 - 1 ∧
    ((3 / 2 : ℕ) : ℚ) ≠ (3 : ℚ) / 2 := by
  have h := center_asymmetry_metric_odd_pairing 3 ⟨1, by norm_num⟩ (by norm_num)
  refine ⟨?_, h.2.1, h.2.2⟩
  apply h.1
  intro i hi
  funext b
  rw [if_neg (by omega), if_neg (by omega)]

/-! ## Center refiner skip logic (`find_diffraction_center`) -/

/-- The comparison `initial_metric < skip_tol` of the source, under IEEE
semantics: a `+∞` metric is never below the tolerance. -/
def metricBelow (m : WithTop ℚ) (tol : ℚ) : Bool :=
  match m with
  | ⊤ => false
  | (q : ℚ) => decide (q < tol)

/-- `find_diffraction_center` with the asymmetry metric abstracted as a
function of the candidate center (the frame, mask and base offsets being
fixed) and the external scipy Nelder–Mead minimizer abstracted as a
parameter: evaluate the metric at the initial center; if it is strictly
below `skip_tol`, return the initial guess unchanged, otherwise run the
minimizer on the metric seeded at the initial guess. -/
def find_diffraction_center (metric : ℚ × ℚ → WithTop ℚ)
    (minimizeNM : (ℚ × ℚ → WithTop ℚ) → ℚ × ℚ → ℚ × ℚ)
    (initial_center : ℚ × ℚ) (skip_tol : ℚ) : ℚ × ℚ :=
  if metricBelow (metric initial_center) skip_tol then initial_center
  else minimizeNM metric initial_center

/-- **C8**: when the asymmetry metric at the initial guess is strictly
below the skip tolerance, `find_diffraction_center` returns exactly that
initial guess, unchanged, and without running the Nelder–Mead
minimization: the result does not depend on the minimizer at all. -/
theorem find_diffraction_center_skip (metric : ℚ × ℚ → WithTop ℚ)
    (initial_center : ℚ × ℚ) (skip_tol : ℚ)
    (h : metricBelow (metric initial_center) skip_tol = true) :
    ∀ m₁ m₂ : (ℚ × ℚ → WithTop ℚ) → ℚ × ℚ → ℚ × ℚ,
      find_diffraction_center metric m₁ initial_center skip_tol = initial_center ∧
      find_diffraction_center metric m₁ initial_center skip_tol =
        find_diffraction_center metric m₂ initial_center skip_tol := by
  intro m₁ m₂
  unfold find_diffraction_center
  rw [if_pos h]
  exact ⟨rfl, (if_pos h).symm⟩

/-- Witness for C8 at a concrete input: metric constantly `1`, tolerance
`3`, two different minimizers. -/
theorem find_diffraction_center_skip_witness :
    find_diffraction_center (fun _ => ((1 : ℚ) : WithTop ℚ)) (fun _ c => c) (2, 3) 3 = (2, 3) ∧
    find_diffraction_center (fun _ => ((1 : ℚ) : WithTop ℚ)) (fun _ c => c) (2, 3) 3 =
      find_diffraction_center (fun _ => ((1 : ℚ) : WithTop ℚ)) (fun _ _ => (0, 0)) (2, 3) 3 :=
  find_diffraction_center_skip (fun _ => ((1 : ℚ) : WithTop ℚ)) (2, 3) 3
    (by with_unfolding_all decide) (fun _ c => c) (fun _ _ => (0, 0))

/-! ## Bin medians (`compute_bin_medians`)

The pixel values of a wedge (possibly NaN, i.e. `none`) are paired with
their radial bin indices; a cell is the sublist falling in one bin. -/

/-- First pass of `compute_bin_medians`: count the values in the bin. -/
def cellCount (paired : List (Option ℚ × ℤ)) (b : ℤ) : ℕ :=
  paired.foldl (fun c p => if p.2 = b then c + 1 else c) 0

/-- First pass of `compute_bin_medians`: check for a NaN in the bin. -/
def cellAnyNaN (paired : List (Option ℚ × ℤ)) (b : ℤ) : Bool :=
  paired.foldl (fun a p => if p.2 = b then (a || p.1.isNone) else a) false

/-- Second pass: collect the values of the bin in order and sort them
(`tmp.sort()`); on the branch where it is used no value is NaN, so the
values are extracted from their `Option` wrapper. -/
def cellSorted (paired : List (Option ℚ × ℤ)) (b : ℤ) : List ℚ :=
  ((paired.filter fun p => decide (p.2 = b)).filterMap Prod.fst).mergeSort
    (fun a c => decide (a ≤ c))

/-- One cell of `compute_bin_medians`: NaN when the cell is empty or
contains a NaN, else the middle sorted element (odd count) or the mean
of the two middle elements (even count). -/
def binMedian (paired : List (Option ℚ × ℤ)) (b : ℤ) : Option ℚ :=
  if cellCount paired b = 0 ∨ cellAnyNaN paired b = true then none
  else if cellCount paired b % 2 = 1 then
    some ((cellSorted paired b).getD (cellCount paired b / 2) 0)
  else
    some (((cellSorted paired b).getD (cellCount paired b / 2 - 1) 0 +
           (cellSorted paired b).getD (cellCount paired b / 2) 0) / 2)

/-- `compute_bin_medians`: the per-bin medians for bins `0, …, n_bins-1`. -/
def compute_bin_medians (wedge_vals : List (Option ℚ)) (bin_indices : List ℤ)
    (n_bins : ℕ) : List (Option ℚ) :=
  (List.range n_bins).map fun b : ℕ => binMedian (wedge_vals.zip bin_indices) (b : ℤ)

/-- Spec-side: the members of a (wedge, bin) cell, in file order. -/
def cellMembers (paired : List (Option ℚ × ℤ)) (b : ℤ) : List (Option ℚ) :=
  (paired.filter fun p => decide (p.2 = b)).map Prod.fst

/-- Spec-side median of a list of rationals: middle element of the
ascending sort for odd length, mean of the two middle elements for even
length. -/
def medianOfList (l : List ℚ) : ℚ :=
  if l.length % 2 = 1 then (l.mergeSort (fun a c => decide (a ≤ c))).getD (l.length / 2) 0
  else ((l.mergeSort (fun a c => decide (a ≤ c))).getD (l.length / 2 - 1) 0 +
        (l.mergeSort (fun a c => decide (a ≤ c))).getD (l.length / 2) 0) / 2

theorem cellCount_eq (paired : List (Option ℚ × ℤ)) (b : ℤ) :
    cellCount paired b = (cellMembers paired b).length := by
  unfold cellCount cellMembers
  rw [List.length_map]
  have h : ∀ (l : List (Option ℚ × ℤ)) (c : ℕ),
      l.foldl (fun c p => if p.2 = b then c + 1 else c) c =
        c + (l.filter fun p => decide (p.2 = b)).length := by
    intro l
    induction l with
    | nil => intro c; simp
    | cons p t ih =>
      intro c
      by_cases hp : p.2 = b
      · rw [List.foldl_cons, List.filter_cons, if_pos hp,
          if_pos (decide_eq_true hp), List.length_cons, ih]
        omega
      · rw [List.foldl_cons, List.filter_cons, if_neg hp,
          if_neg (fun hcon => hp (of_decide_eq_true hcon))]
        exact ih c
  rw [h paired 0, Nat.zero_add]

theorem cellAnyNaN_eq (paired : List (Option ℚ × ℤ)) (b : ℤ) :
    cellAnyNaN paired b = (cellMembers paired b).any Option.isNone := by
  unfold cellAnyNaN cellMembers
  have h : ∀ (l : List (Option ℚ × ℤ)) (a : Bool),
      l.foldl (fun a p => if p.2 = b then (a || p.1.isNone) else a) a =
        (a || ((l.filter fun p => decide (p.2 = b)).map Prod.fst).any Option.isNone) := by
    intro l
    induction l with
    | nil => intro a; simp
    | cons p t ih =>
      intro a
      by_cases hp : p.2 = b
      · rw [List.foldl_cons, List.filter_cons, if_pos hp,
          if_pos (decide_eq_true hp), List.map_cons, List.any_cons, ih,
          Bool.or_assoc]
      · rw [List.foldl_cons, List.filter_cons, if_neg hp,
          if_neg (fun hcon => hp (of_decide_eq_true hcon))]
        exact ih a
  rw [h paired false, Bool.false_or]

theorem any_isNone_iff_none_mem (l : List (Option ℚ)) :
    l.any Option.isNone = true ↔ none ∈ l := by
  rw [List.any_eq_true]
  constructor
  · rintro ⟨x, hx, hnone⟩
    rwa [Option.isNone_iff_eq_none.mp hnone] at hx
  · intro h
    exact ⟨none, h, rfl⟩

theorem cellSorted_eq (paired : List (Option ℚ × ℤ)) (b : ℤ) :
    cellSorted paired b =
      ((cellMembers paired b).filterMap id).mergeSort (fun a c => decide (a ≤ c)) := by
  unfold cellSorted cellMembers
  rw [List.filterMap_map]
  rfl

theorem length_filterMap_id_of_no_none (l : List (Option ℚ)) (h : none ∉ l) :
    (l.filterMap id).length = l.length := by
  induction l with
  | nil => rfl
  | cons a t ih =>
    rw [List.mem_cons] at h
    push_neg at h
    match a, h.1 with
    | some x, _ =>
      rw [show (some x :: t).filterMap id = x :: t.filterMap id from rfl,
        List.length_cons, List.length_cons, ih h.2]

theorem getD_map_range {α : Type} (f : ℕ → α) {n b : ℕ} (hb : b < n) (d : α) :
    ((List.range n).map f).getD b d = f b := by
  rw [List.getD_eq_getElem?_getD, List.getElem?_map, List.getElem?_range hb]
  rfl

/-- **C9**: each cell of `compute_bin_medians` is the NaN sentinel
exactly when the cell has no members or at least one member is NaN, and
otherwise equals the median of the cell members (middle sorted element
for odd count, mean of the two middle elements for even count). -/
theorem compute_bin_medians_spec (wedge_vals : List (Option ℚ))
    (bin_indices : List ℤ) (n_bins b : ℕ) (hb : b < n_bins) :
    (compute_bin_medians wedge_vals bin_indices n_bins).getD b none =
      (if cellMembers (wedge_vals.zip bin_indices) (b : ℤ) = [] ∨
          none ∈ cellMembers (wedge_vals.zip bin_indices) (b : ℤ) then none
       else some (medianOfList
         ((cellMembers (wedge_vals.zip bin_indices) (b : ℤ)).filterMap id))) := by
  rw [compute_bin_medians, getD_map_range _ hb]
  set paired := wedge_vals.zip bin_indices with hpaired
  unfold binMedian
  rw [cellCount_eq, cellAnyNaN_eq]
  by_cases hc : cellMembers paired (b : ℤ) = [] ∨ none ∈ cellMembers paired (b : ℤ)
  · rw [if_pos hc]
    rcases hc with h | h
    · rw [if_pos (Or.inl (by rw [h]; rfl))]
    · rw [if_pos (Or.inr ((any_isNone_iff_none_mem _).mpr h))]
  · push_neg at hc
    have hcond : ¬ ((cellMembers paired (b : ℤ)).length = 0 ∨
        ((cellMembers paired (b : ℤ)).any Option.isNone) = true) := by
      push_neg
      exact ⟨fun hlz => hc.1 (List.length_eq_zero.mp hlz),
        fun hany => hc.2 ((any_isNone_iff_none_mem _).mp hany)⟩
    rw [if_neg hcond, if_neg (not_or.mpr hc)]
    have hlen : ((cellMembers paired (b : ℤ)).filterMap id).length =
        (cellMembers paired (b : ℤ)).length :=
      length_filterMap_id_of_no_none _ hc.2
    unfold medianOfList
    rw [cellSorted_eq, hlen]
    split_ifs with hpar
    · rfl
    · rfl

/-- Witness for C9 at a concrete input: two values `[3, 1]` in bin 0 of
a 1-bin layout, whose cell median is `(1 + 3)/2 = 2`. -/
theorem compute_bin_medians_spec_witness :
    (compute_bin_medians [some 3, some 1] [0, 0] 1).getD 0 none =
      (if cellMembers ([some 3, some 1].zip [0, 0]) ((0 : ℕ) : ℤ) = [] ∨
          none ∈ cellMembers ([some 3, some 1].zip [0, 0]) ((0 : ℕ) : ℤ) then none
       else some (medianOfList
         ((cellMembers ([some 3, some 1].zip [0, 0]) ((0 : ℕ) : ℤ)).filterMap id))) :=
  compute_bin_medians_spec [some 3, some 1] [0, 0] 1 0 (by norm_num)

end ICF
